import Mathlib

/-!
Verification of the univariate classification (binning) component used by the
`narsc16` notebooks, together with the one in-repository helper function
(`has_pool`).  The notebooks call the PySAL classifiers
(`ps.Quantiles`, `ps.Equal_Interval`, `ps.Fisher_Jenks`, `ps.Maximum_Breaks`)
and read their `yb` (class assignment), `bins` (class upper bounds) and
`adcm` (absolute deviation around class means) attributes; the classifier
implementations themselves live in the external library, so they are
modelled here from the specification's description of each operation.
Observations are modelled as rationals (exact arithmetic standing in for the
IEEE-754 doubles of the source).
-/

/-- Sorting a sample into ascending order. -/
def sortQ (s : List ℚ) : List ℚ :=
  List.insertionSort (· ≤ ·) s

/-- Modelled from the spec: the class id of a value is the smallest bin index
whose upper bound is ≥ the value (`bins.length` if every bin is below it). -/
def classOf (bins : List ℚ) (v : ℚ) : ℕ :=
  bins.findIdx (fun b => decide (v ≤ b))

/-- Modelled from the spec: a classification result owns the bin upper bounds,
the input observations and the zero-based class id of each observation. -/
structure ClassificationResult where
  bins : List ℚ
  vals : List ℚ
  yb : List ℕ

/-- Build a result from bin upper bounds: each observation is assigned the
smallest bin index whose upper bound is ≥ its value. -/
def mkResult (bins : List ℚ) (s : List ℚ) : ClassificationResult :=
  ⟨bins, s, s.map (classOf bins)⟩

/-- Error kind raised by the classifiers on invalid input. -/
inductive ClsError where
  | InvalidArgument
deriving DecidableEq

/-- Minimum of a sample (head of the sorted copy, 0 on an empty sample). -/
def minOf (s : List ℚ) : ℚ :=
  (sortQ s).getD 0 0

/-- Maximum of a sample (last of the sorted copy, 0 on an empty sample). -/
def maxOf (s : List ℚ) : ℚ :=
  (sortQ s).getD (s.length - 1) 0

/-- Ceiling division on naturals: `nceil a b = ⌈a / b⌉`. -/
def nceil (a b : ℕ) : ℕ :=
  (a + b - 1) / b

/-- Modelled from the spec: the quantile bin upper bound for class `j` is the
value at rank `⌈(j+1)·n/k⌉ - 1` of the sorted sample. -/
def quantBins (s : List ℚ) (k : ℕ) : List ℚ :=
  (List.range k).map (fun j => (sortQ s).getD (nceil ((j + 1) * s.length) k - 1) 0)

/-- Modelled from the spec: the quantiles classification. -/
def quantiles (s : List ℚ) (k : ℕ) : ClassificationResult :=
  mkResult (quantBins s k) s

/-- Modelled from the spec: quantiles with validation; fails with
`InvalidArgument` when `k ≤ 0` or `k > n`. -/
def quantilesE (s : List ℚ) (k : ℕ) : Except ClsError ClassificationResult :=
  if k = 0 ∨ s.length < k then .error .InvalidArgument else .ok (quantiles s k)

/-- Modelled from the spec: equal-interval bin upper bounds,
`min + (j+1)·(max-min)/k`; a single bin when `max = min`. -/
def eiBins (s : List ℚ) (k : ℕ) : List ℚ :=
  if maxOf s = minOf s then [maxOf s]
  else (List.range k).map (fun j : ℕ => minOf s + ((j : ℚ) + 1) * ((maxOf s - minOf s) / k))

/-- Modelled from the spec: the equal-interval classification. -/
def equal_interval (s : List ℚ) (k : ℕ) : ClassificationResult :=
  mkResult (eiBins s k) s

/-- Modelled from the spec: equal interval with validation; fails with
`InvalidArgument` when `k ≤ 0`. -/
def equal_intervalE (s : List ℚ) (k : ℕ) : Except ClsError ClassificationResult :=
  if k = 0 then .error .InvalidArgument else .ok (equal_interval s k)

/-- Mean of a block of values (0 for an empty block). -/
def mean (b : List ℚ) : ℚ :=
  b.sum / b.length

/-- Sum of absolute deviations of a block from its mean. -/
def adBlock (b : List ℚ) : ℚ :=
  (b.map (fun v => |v - mean b|)).sum

/-- Sum of squared deviations of a block from its mean. -/
def ssdBlock (b : List ℚ) : ℚ :=
  (b.map (fun v => (v - mean b) ^ 2)).sum

/-- Within-class sum of squared deviations of a partition. -/
def ssdP (P : List (List ℚ)) : ℚ :=
  (P.map ssdBlock).sum

/-- Modelled from the spec: `fit_measure` — sum over classes of the absolute
deviations of the class members from the class mean (`adcm`). -/
def adcm (r : ClassificationResult) : ℚ :=
  ((List.range r.bins.length).map
    (fun j => adBlock (r.vals.filter (fun v => decide (classOf r.bins v = j))))).sum

/-- Within-class sum of squared deviations of a classification result,
computed over the classes of the sorted sample. -/
def wcss (r : ClassificationResult) : ℚ :=
  ssdP ((List.range r.bins.length).map
    (fun j => (sortQ r.vals).filter (fun v => decide (classOf r.bins v = j))))

/-- All ways to cut a list into a nonempty prefix and the remaining suffix. -/
def splits1 : List ℚ → List (List ℚ × List ℚ)
  | [] => []
  | a :: t => ([a], t) :: (splits1 t).map (fun pr => (a :: pr.1, pr.2))

/-- All partitions of a list into at most `k` nonempty contiguous blocks. -/
def parts : ℕ → List ℚ → List (List (List ℚ))
  | _, [] => [[]]
  | 0, _ :: _ => []
  | k + 1, a :: t =>
    (splits1 (a :: t)).flatMap (fun pr => (parts k pr.2).map (fun P => pr.1 :: P))

/-- First minimiser of a rational cost over a list (`none` on the empty list). -/
def argminQ {α : Type} (f : α → ℚ) : List α → Option α
  | [] => none
  | a :: t => some (t.foldl (fun acc x => if f x < f acc then x else acc) a)

/-- Modelled from the spec: the Fisher-Jenks partition — a globally optimal
partition of the sorted sample into at most `k` contiguous classes minimising
the within-class sum of squared deviations from the class means. -/
def fjPartition (s : List ℚ) (k : ℕ) : List (List ℚ) :=
  (argminQ ssdP (parts k (sortQ s))).getD []

/-- Modelled from the spec: the Fisher-Jenks classification; the bin upper
bounds are the last (largest) members of the optimal partition's classes. -/
def fisher_jenks (s : List ℚ) (k : ℕ) : ClassificationResult :=
  mkResult ((fjPartition s k).map (fun b => b.getLastD 0)) s

/-- The objective value attained by the Fisher-Jenks partition. -/
def fjSSD (s : List ℚ) (k : ℕ) : ℚ :=
  ssdP (fjPartition s k)

/-- The distinct values of a sample, in ascending order. -/
def uniqVals (s : List ℚ) : List ℚ :=
  (sortQ s).dedup

/-- Modelled from the spec: maximum-breaks bin upper bounds — midpoints of the
`k-1` largest gaps between consecutive distinct sorted values, in ascending
order, followed by the sample maximum. -/
def mbBins (s : List ℚ) (k : ℕ) : List ℚ :=
  let u := uniqVals s
  let gaps := u.zip u.tail
  let chosen := (List.insertionSort (fun p q : ℚ × ℚ => q.2 - q.1 ≤ p.2 - p.1) gaps).take (k - 1)
  sortQ (chosen.map (fun p => (p.1 + p.2) / 2)) ++ [maxOf s]

/-- Modelled from the spec: the maximum-breaks classification; fails with
`InvalidArgument` when `k ≤ 0` or the sample has fewer than `k` distinct
values. -/
def maximum_breaksE (s : List ℚ) (k : ℕ) : Except ClsError ClassificationResult :=
  if k = 0 ∨ (uniqVals s).length < k then .error .InvalidArgument
  else .ok (mkResult (mbBins s k) s)

/-- Boolean substring containment on character lists (Python's `in`). -/
def isSub (p : List Char) : List Char → Bool
  | [] => p.isEmpty
  | a :: t => p.isPrefixOf (a :: t) || isSub p t

/-- `has_pool` from the spatial-regression notebook: 1 when the substring
`"Pool"` occurs in the amenities string, 0 otherwise. -/
def has_pool (a : List Char) : ℕ :=
  if isSub "Pool".toList a then 1 else 0

/-- The ten-colour palette used with the `k = 10` classifiers in the
geovisualization notebook. -/
def colors10 : List String :=
  ["#000000", "#1c1c1c", "#383838", "#555555", "#717171",
   "#8d8d8d", "#aaaaaa", "#c6c6c6", "#e2e2e2", "#ffffff"]

/-- `j` is the smallest bin index whose upper bound is ≥ `v`. -/
def IsSmallestBin (bins : List ℚ) (v : ℚ) (j : ℕ) : Prop :=
  ∃ h : j < bins.length,
    v ≤ bins.get ⟨j, h⟩ ∧ ∀ j2 (h2 : j2 < j), ¬ v ≤ bins.get ⟨j2, by omega⟩

/-- The invariant of §3 of the spec: every observation is assigned the smallest
bin whose upper bound dominates it, the classes cover each observation exactly
once, and the class ids are non-decreasing in value order. -/
def ValidResult (r : ClassificationResult) (s : List ℚ) : Prop :=
  r.yb.length = s.length ∧
  (∀ i, i < s.length → IsSmallestBin r.bins (s.getD i 0) (r.yb.getD i 0)) ∧
  (∑ j ∈ Finset.range r.bins.length, r.yb.count j) = s.length ∧
  List.Sorted (· ≤ ·) ((sortQ s).map (classOf r.bins))

theorem sortQ_sorted (s : List ℚ) : List.Sorted (· ≤ ·) (sortQ s) :=
  List.sorted_insertionSort _ s

theorem sortQ_perm (s : List ℚ) : (sortQ s).Perm s :=
  List.perm_insertionSort _ s

theorem length_sortQ (s : List ℚ) : (sortQ s).length = s.length :=
  (sortQ_perm s).length_eq

theorem mem_sortQ {s : List ℚ} {v : ℚ} : v ∈ sortQ s ↔ v ∈ s :=
  (sortQ_perm s).mem_iff

theorem classOf_mono (bins : List ℚ) {v w : ℚ} (hvw : v ≤ w) :
    classOf bins v ≤ classOf bins w := by
  induction bins with
  | nil => simp [classOf]
  | cons b t ih =>
    simp only [classOf, List.findIdx_cons] at *
    by_cases hw : w ≤ b
    · have hv : v ≤ b := le_trans hvw hw
      simp [hv, hw]
    · by_cases hv : v ≤ b
      · simp [hv, hw]
      · simpa [hv, hw] using ih

theorem classOf_lt_length {bins : List ℚ} {v : ℚ} (h : ∃ b ∈ bins, v ≤ b) :
    classOf bins v < bins.length := by
  apply List.findIdx_lt_length_of_exists
  obtain ⟨b, hb, hvb⟩ := h
  exact ⟨b, hb, by simpa using hvb⟩

theorem isSmallestBin_classOf {bins : List ℚ} {v : ℚ} (h : ∃ b ∈ bins, v ≤ b) :
    IsSmallestBin bins v (classOf bins v) := by
  refine ⟨classOf_lt_length h, ?_, ?_⟩
  · have := @List.findIdx_getElem _ (fun b => decide (v ≤ b)) bins
      (classOf_lt_length h)
    simpa [classOf, List.get_eq_getElem] using this
  · intro j2 h2
    have := @List.not_of_lt_findIdx _ (fun b => decide (v ≤ b)) bins j2 h2
    simpa [List.get_eq_getElem] using this

theorem sorted_le_getD {l : List ℚ} (hs : List.Sorted (· ≤ ·) l)
    {i j : ℕ} (hij : i ≤ j) (hj : j < l.length) :
    l.getD i 0 ≤ l.getD j 0 := by
  have hi : i < l.length := lt_of_le_of_lt hij hj
  rw [List.getD_eq_getElem l 0 hi, List.getD_eq_getElem l 0 hj]
  rcases eq_or_lt_of_le hij with rfl | hlt
  · exact le_refl _
  · exact hs.rel_get_of_lt (a := ⟨i, hi⟩) (b := ⟨j, hj⟩) hlt

theorem mem_le_maxOf {s : List ℚ} {v : ℚ} (hv : v ∈ s) : v ≤ maxOf s := by
  have hv2 : v ∈ sortQ s := mem_sortQ.mpr hv
  obtain ⟨i, hi⟩ := List.get_of_mem hv2
  have hlen : (sortQ s).length = s.length := length_sortQ s
  have hn : 0 < s.length := List.length_pos_of_mem hv
  have hidx : (i : ℕ) ≤ s.length - 1 := by
    have := i.isLt
    omega
  have hlast : s.length - 1 < (sortQ s).length := by omega
  have h2 := sorted_le_getD (sortQ_sorted s) hidx hlast
  have h3 : (sortQ s).getD (i : ℕ) 0 = v := by
    rw [List.getD_eq_getElem _ 0 i.isLt]
    simpa [List.get_eq_getElem] using hi
  rw [h3] at h2
  simpa only [maxOf] using h2

theorem minOf_le_mem {s : List ℚ} {v : ℚ} (hv : v ∈ s) : minOf s ≤ v := by
  have hv2 : v ∈ sortQ s := mem_sortQ.mpr hv
  obtain ⟨i, hi⟩ := List.get_of_mem hv2
  have h2 := sorted_le_getD (sortQ_sorted s) (Nat.zero_le (i : ℕ)) i.isLt
  have h3 : (sortQ s).getD (i : ℕ) 0 = v := by
    rw [List.getD_eq_getElem _ 0 i.isLt]
    simpa [List.get_eq_getElem] using hi
  rw [h3] at h2
  simpa only [minOf] using h2

theorem sum_count_eq_length (l : List ℕ) (m : ℕ) (h : ∀ c ∈ l, c < m) :
    (∑ j ∈ Finset.range m, l.count j) = l.length := by
  induction l with
  | nil => simp
  | cons a t ih =>
    have ha : a < m := h a (List.mem_cons_self a t)
    have ht : ∀ c ∈ t, c < m := fun c hc => h c (List.mem_cons_of_mem a hc)
    have hcnt : ∀ j, (a :: t).count j = t.count j + if a = j then 1 else 0 := by
      intro j
      simp [List.count_cons]
    calc (∑ j ∈ Finset.range m, (a :: t).count j)
        = ∑ j ∈ Finset.range m, (t.count j + if a = j then 1 else 0) := by
          exact Finset.sum_congr rfl (fun j _ => hcnt j)
      _ = (∑ j ∈ Finset.range m, t.count j)
          + ∑ j ∈ Finset.range m, (if a = j then 1 else 0) := by
          rw [Finset.sum_add_distrib]
      _ = t.length + 1 := by
          rw [ih ht, Finset.sum_ite_eq (Finset.range m) a (fun _ => 1)]
          simp [Finset.mem_range.mpr ha]
      _ = (a :: t).length := by simp

theorem mem_splits1 {l : List ℚ} {pr : List ℚ × List ℚ} :
    pr ∈ splits1 l ↔ pr.1 ≠ [] ∧ pr.1 ++ pr.2 = l := by
  induction l generalizing pr with
  | nil =>
    simp only [splits1, List.not_mem_nil, false_iff, not_and]
    intro h1 h2
    exact h1 (List.append_eq_nil.mp h2).1
  | cons a t ih =>
    simp only [splits1, List.mem_cons, List.mem_map]
    constructor
    · rintro (rfl | ⟨q, hq, rfl⟩)
      · exact ⟨by simp, by simp⟩
      · obtain ⟨h1, h2⟩ := ih.mp hq
        exact ⟨by simp, by simp [h2]⟩
    · rintro ⟨h1, h2⟩
      rcases pr with ⟨p, r⟩
      rcases p with _ | ⟨x, p2⟩
      · exact absurd rfl h1
      · simp only [List.cons_append, List.cons.injEq] at h2
        obtain ⟨rfl, h3⟩ := h2
        rcases p2 with _ | ⟨y, p3⟩
        · left
          simp only [List.nil_append] at h3
          simp [h3]
        · right
          refine ⟨(y :: p3, r), ih.mpr ⟨by simp, h3⟩, by simp⟩

theorem mem_parts {k : ℕ} : ∀ {l : List ℚ} {P : List (List ℚ)},
    P ∈ parts k l ↔ (P.flatten = l ∧ P.length ≤ k ∧ ∀ b ∈ P, b ≠ []) := by
  induction k with
  | zero =>
    intro l P
    cases l with
    | nil =>
      simp only [parts, List.mem_singleton]
      constructor
      · rintro rfl; simp
      · rintro ⟨h1, h2, h3⟩
        exact List.length_eq_zero.mp (Nat.le_zero.mp h2)
    | cons a t =>
      simp only [parts, List.not_mem_nil, false_iff, not_and]
      intro h1 h2
      rw [List.length_eq_zero.mp (Nat.le_zero.mp h2)] at h1
      simp at h1
  | succ k ih =>
    intro l P
    cases l with
    | nil =>
      simp only [parts, List.mem_singleton]
      constructor
      · rintro rfl; simp
      · rintro ⟨h1, h2, h3⟩
        cases P with
        | nil => rfl
        | cons b Q =>
          exfalso
          have hb : b = [] := by
            have := List.flatten_eq_nil_iff.mp h1
            exact this b (List.mem_cons_self b Q)
          exact h3 b (List.mem_cons_self b Q) hb
    | cons a t =>
      simp only [parts, List.mem_flatMap, List.mem_map]
      constructor
      · rintro ⟨pr, hpr, Q, hQ, rfl⟩
        obtain ⟨hp1, hp2⟩ := mem_splits1.mp hpr
        obtain ⟨hf, hlen, hne⟩ := ih.mp hQ
        refine ⟨by simp [hf, hp2], by simpa using Nat.succ_le_succ hlen, ?_⟩
        intro b hb
        rcases List.mem_cons.mp hb with rfl | hb2
        · exact hp1
        · exact hne b hb2
      · rintro ⟨h1, h2, h3⟩
        cases P with
        | nil => simp at h1
        | cons b Q =>
          have hb : b ≠ [] := h3 b (List.mem_cons_self b Q)
          have hflat : b ++ Q.flatten = a :: t := by simpa using h1
          refine ⟨(b, Q.flatten), mem_splits1.mpr ⟨hb, hflat⟩, Q, ?_, rfl⟩
          refine ih.mpr ⟨rfl, by simpa using Nat.lt_succ_iff.mp (Nat.lt_of_lt_of_le (by simp) h2), ?_⟩
          · exact fun c hc => h3 c (List.mem_cons_of_mem b hc)

theorem parts_ne_nil {k : ℕ} (hk : 1 ≤ k) (l : List ℚ) : parts k l ≠ [] := by
  cases l with
  | nil =>
    cases k with
    | zero => simp [parts]
    | succ k => simp [parts]
  | cons a t =>
    apply List.ne_nil_of_mem (a := [a :: t])
    exact mem_parts.mpr ⟨by simp, by simpa using hk, by simp⟩

theorem argminQ_spec {α : Type} (f : α → ℚ) (a : α) (t : List α) :
    ∃ m, argminQ f (a :: t) = some m ∧ m ∈ a :: t ∧ ∀ x ∈ a :: t, f m ≤ f x := by
  suffices h : ∀ (r : List α) (a : α),
      (r.foldl (fun acc x => if f x < f acc then x else acc) a) ∈ a :: r ∧
      f (r.foldl (fun acc x => if f x < f acc then x else acc) a) ≤ f a ∧
      ∀ x ∈ r, f (r.foldl (fun acc x => if f x < f acc then x else acc) a) ≤ f x by
    obtain ⟨h1, h2, h3⟩ := h t a
    refine ⟨_, rfl, h1, ?_⟩
    intro x hx
    rcases List.mem_cons.mp hx with rfl | hx2
    · exact h2
    · exact h3 x hx2
  intro r
  induction r with
  | nil => intro a; simp
  | cons x r2 ih =>
    intro a
    obtain ⟨ih1, ih2, ih3⟩ := ih (if f x < f a then x else a)
    have hstep : f (if f x < f a then x else a) ≤ f a ∧ f (if f x < f a then x else a) ≤ f x := by
      by_cases hc : f x < f a
      · simp [hc]; exact le_of_lt hc
      · simp [hc]; exact le_of_not_lt hc
    refine ⟨?_, ?_, ?_⟩
    · rcases List.mem_cons.mp ih1 with he | hm
      · rw [List.foldl_cons, he]
        by_cases hc : f x < f a
        · simp [hc]
        · simp [hc]
      · rw [List.foldl_cons]
        exact List.mem_cons_of_mem _ (List.mem_cons_of_mem _ hm)
    · rw [List.foldl_cons]
      exact le_trans ih2 hstep.1
    · intro y hy
      rcases List.mem_cons.mp hy with rfl | hy2
      · rw [List.foldl_cons]
        exact le_trans ih2 hstep.2
      · rw [List.foldl_cons]
        exact ih3 y hy2

theorem fjPartition_spec {s : List ℚ} {k : ℕ} (hk : 1 ≤ k) :
    fjPartition s k ∈ parts k (sortQ s) ∧
      ∀ P ∈ parts k (sortQ s), fjSSD s k ≤ ssdP P := by
  cases hL : parts k (sortQ s) with
  | nil => exact absurd hL (parts_ne_nil hk _)
  | cons P0 L =>
    obtain ⟨m, hm, hmem, hmin⟩ := argminQ_spec ssdP P0 L
    have hfj : fjPartition s k = m := by
      simp [fjPartition, hL, hm]
    constructor
    · rw [hfj]; exact hmem
    · intro P hP
      rw [fjSSD, hfj]
      exact hmin P hP

theorem sorted_head_le_getLastD {t : List ℚ} :
    ∀ {a : ℚ}, List.Sorted (· ≤ ·) (a :: t) → ∀ d, a ≤ (a :: t).getLastD d := by
  induction t with
  | nil =>
    intro a _ d
    simp
  | cons b t2 ih =>
    intro a hs d
    rw [List.getLastD_cons]
    have hab : a ≤ b := List.rel_of_sorted_cons hs b (List.mem_cons_self b t2)
    have h2 : b ≤ (b :: t2).getLastD a := ih (List.Sorted.of_cons hs) a
    exact le_trans hab h2

theorem sorted_mem_le_getLastD {l : List ℚ} (hs : List.Sorted (· ≤ ·) l)
    {v : ℚ} (hv : v ∈ l) (d : ℚ) : v ≤ l.getLastD d := by
  induction l generalizing d with
  | nil => simp at hv
  | cons a t ih =>
    rcases List.mem_cons.mp hv with rfl | hv2
    · exact sorted_head_le_getLastD hs d
    · rw [List.getLastD_cons]
      exact ih (List.Sorted.of_cons hs) hv2 a

theorem exists_bin_fj {s : List ℚ} {k : ℕ} (hk : 1 ≤ k) :
    ∀ v ∈ s, ∃ b ∈ (fjPartition s k).map (fun b => b.getLastD 0), v ≤ b := by
  intro v hv
  obtain ⟨hmem, -⟩ := fjPartition_spec (s := s) hk
  obtain ⟨hflat, hlen, hne⟩ := mem_parts.mp hmem
  have hv2 : v ∈ (fjPartition s k).flatten := by
    rw [hflat]; exact mem_sortQ.mpr hv
  obtain ⟨b, hb, hvb⟩ := List.mem_flatten.mp hv2
  refine ⟨b.getLastD 0, List.mem_map_of_mem _ hb, ?_⟩
  have hsub : b.Sublist (fjPartition s k).flatten := List.sublist_flatten_of_mem hb
  have hbs : List.Sorted (· ≤ ·) b := by
    have := hflat ▸ hsub
    exact List.Pairwise.sublist this (sortQ_sorted s)
  exact sorted_mem_le_getLastD hbs hvb 0

theorem nceil_mul_self {k n : ℕ} (hk : 1 ≤ k) : nceil (k * n) k = n := by
  unfold nceil
  have h1 : k * n + k - 1 = (k - 1) + n * k := by
    rw [Nat.mul_comm]; omega
  rw [h1, Nat.add_mul_div_right _ _ (by omega : 0 < k), Nat.div_eq_of_lt (by omega)]
  omega

theorem quantBins_length (s : List ℚ) (k : ℕ) : (quantBins s k).length = k := by
  simp [quantBins]

theorem quantBins_getD {s : List ℚ} {k j : ℕ} (hj : j < k) :
    (quantBins s k).getD j 0
      = (sortQ s).getD (nceil ((j + 1) * s.length) k - 1) 0 := by
  rw [List.getD_eq_getElem _ 0 (by simpa [quantBins_length] using hj)]
  simp [quantBins]

theorem maxOf_mem_quantBins {s : List ℚ} {k : ℕ} (hk : 1 ≤ k) :
    maxOf s ∈ quantBins s k := by
  have hj : k - 1 < k := by omega
  have hb : (quantBins s k).getD (k - 1) 0 = maxOf s := by
    rw [quantBins_getD hj]
    have h1 : k - 1 + 1 = k := by omega
    rw [h1, nceil_mul_self hk]
    rfl
  rw [← hb, List.getD_eq_getElem _ 0 (by simpa [quantBins_length] using hj)]
  exact List.getElem_mem _

theorem exists_bin_quantiles {s : List ℚ} {k : ℕ} (hk : 1 ≤ k) :
    ∀ v ∈ s, ∃ b ∈ quantBins s k, v ≤ b :=
  fun v hv => ⟨maxOf s, maxOf_mem_quantBins hk, mem_le_maxOf hv⟩

theorem eiBins_eq_map {s : List ℚ} {k : ℕ} (hne : maxOf s ≠ minOf s) :
    eiBins s k = (List.range k).map
      (fun j : ℕ => minOf s + ((j : ℚ) + 1) * ((maxOf s - minOf s) / k)) := by
  rw [eiBins, if_neg hne]

theorem eiBins_length {s : List ℚ} {k : ℕ} (hne : maxOf s ≠ minOf s) :
    (eiBins s k).length = k := by
  rw [eiBins_eq_map hne, List.length_map, List.length_range]

theorem eiBins_getD {s : List ℚ} {k j : ℕ} (hne : maxOf s ≠ minOf s) (hj : j < k) :
    (eiBins s k).getD j 0
      = minOf s + ((j : ℚ) + 1) * ((maxOf s - minOf s) / k) := by
  rw [eiBins_eq_map hne]
  rw [List.getD_eq_getElem _ 0 (by simpa using hj)]
  simp

theorem eiBins_last {s : List ℚ} {k : ℕ} (hk : 1 ≤ k)
    (hne : maxOf s ≠ minOf s) :
    (eiBins s k).getD (k - 1) 0 = maxOf s := by
  rw [eiBins_getD hne (by omega : k - 1 < k)]
  have hcast : ((k - 1 : ℕ) : ℚ) + 1 = (k : ℚ) := by
    have h0 : ((k - 1 : ℕ) : ℚ) = (k : ℚ) - 1 := by
      push_cast [Nat.cast_sub hk]
      ring
    rw [h0]; ring
  rw [hcast]
  have hk0 : (k : ℚ) ≠ 0 := Nat.cast_ne_zero.mpr (by omega)
  field_simp

theorem exists_bin_ei {s : List ℚ} {k : ℕ} (hk : 1 ≤ k) :
    ∀ v ∈ s, ∃ b ∈ eiBins s k, v ≤ b := by
  intro v hv
  by_cases hd : maxOf s = minOf s
  · exact ⟨maxOf s, by simp [eiBins, hd], mem_le_maxOf hv⟩
  · refine ⟨maxOf s, ?_, mem_le_maxOf hv⟩
    have hlen : (eiBins s k).length = k := eiBins_length hd
    rw [← eiBins_last hk hd, List.getD_eq_getElem _ 0 (by omega : k - 1 < (eiBins s k).length)]
    exact List.getElem_mem _

theorem validResult_mkResult {bins s : List ℚ}
    (hex : ∀ v ∈ s, ∃ b ∈ bins, v ≤ b) :
    ValidResult (mkResult bins s) s := by
  have hyblen : (mkResult bins s).yb.length = s.length := by simp [mkResult]
  refine ⟨hyblen, ?_, ?_, ?_⟩
  · intro i hi
    have hmem : s.getD i 0 ∈ s := by
      rw [List.getD_eq_getElem _ 0 hi]
      exact List.getElem_mem _
    have hyb : (mkResult bins s).yb.getD i 0 = classOf bins (s.getD i 0) := by
      rw [List.getD_eq_getElem _ 0 (by omega : i < (mkResult bins s).yb.length),
        List.getD_eq_getElem _ 0 hi]
      simp [mkResult]
    rw [hyb]
    exact isSmallestBin_classOf (hex _ hmem)
  · have hall : ∀ c ∈ (mkResult bins s).yb, c < bins.length := by
      intro c hc
      simp only [mkResult, List.mem_map] at hc
      obtain ⟨v, hv, rfl⟩ := hc
      exact classOf_lt_length (hex v hv)
    have := sum_count_eq_length (mkResult bins s).yb bins.length hall
    rw [hyblen] at this
    simpa [mkResult] using this
  · have hpw := sortQ_sorted s
    rw [List.Sorted, List.pairwise_map]
    exact List.Pairwise.imp (fun h => classOf_mono _ h) hpw

theorem sorted_getD_lt {l : List ℚ} (hs : List.Sorted (· ≤ ·) l) (hnd : l.Nodup)
    {i j : ℕ} (hij : i < j) (hj : j < l.length) :
    l.getD i 0 < l.getD j 0 := by
  have hle := sorted_le_getD hs (le_of_lt hij) hj
  rcases lt_or_eq_of_le hle with h | h
  · exact h
  · exfalso
    have hi : i < l.length := lt_trans hij hj
    rw [List.getD_eq_getElem _ 0 hi, List.getD_eq_getElem _ 0 hj] at h
    have hfin : (⟨i, hi⟩ : Fin l.length) = ⟨j, hj⟩ :=
      (List.Nodup.get_inj_iff hnd).mp (by simpa [List.get_eq_getElem] using h)
    have : i = j := by simpa using hfin
    omega

theorem classOf_quantBins_nodup {s : List ℚ} {k q i : ℕ} (hnd : s.Nodup)
    (hk : 1 ≤ k) (hq : 1 ≤ q) (hn : s.length = k * q) (hi : i < s.length) :
    classOf (quantBins s k) ((sortQ s).getD i 0) = i / q := by
  have hsorted := sortQ_sorted s
  have hslen : (sortQ s).length = s.length := length_sortQ s
  have hnd2 : (sortQ s).Nodup := (sortQ_perm s).nodup_iff.mpr hnd
  have ht : i / q < k := by
    rw [Nat.div_lt_iff_lt_mul (by omega : 0 < q)]
    omega
  have hbins : ∀ j, j < k →
      (quantBins s k).getD j 0 = (sortQ s).getD ((j + 1) * q - 1) 0 := by
    intro j hj
    rw [quantBins_getD hj]
    have h1 : (j + 1) * s.length = k * ((j + 1) * q) := by
      rw [hn]; ring
    rw [h1, nceil_mul_self hk]
  have hlen : (quantBins s k).length = k := quantBins_length s k
  rw [classOf, List.findIdx_eq (by omega : i / q < (quantBins s k).length)]
  have hgq : ∀ j (hjk : j < k) (hj2 : j < (quantBins s k).length),
      (quantBins s k)[j] = (sortQ s).getD ((j + 1) * q - 1) 0 := by
    intro j hjk hj2
    rw [← hbins j hjk, List.getD_eq_getElem _ 0 hj2]
  constructor
  · rw [hgq (i / q) ht (by omega)]
    have hmul : i < (i / q + 1) * q := by
      have h3 := Nat.div_add_mod i q
      have h4 : i % q < q := Nat.mod_lt _ (by omega)
      nlinarith [h3, h4]
    have hub : (i / q + 1) * q ≤ k * q := by
      have : i / q + 1 ≤ k := ht
      exact Nat.mul_le_mul_right q this
    have hidx : (i / q + 1) * q - 1 < (sortQ s).length := by omega
    have hle := sorted_le_getD hsorted (by omega : i ≤ (i / q + 1) * q - 1) hidx
    simpa using hle
  · intro j hj
    have hjk : j < k := by omega
    rw [hgq j hjk (by omega)]
    have h5 : (j + 1) * q ≤ (i / q) * q := by
      have : j + 1 ≤ i / q := hj
      exact Nat.mul_le_mul_right q this
    have h6 : (i / q) * q ≤ i := Nat.div_mul_le_self i q
    have h7 : 1 ≤ (j + 1) * q := by
      have := Nat.mul_le_mul (by omega : 1 ≤ j + 1) hq
      omega
    have hidx2 : (j + 1) * q - 1 < i := by omega
    have hlt := sorted_getD_lt hsorted hnd2 hidx2 (by omega : i < (sortQ s).length)
    simpa using not_le.mpr hlt

theorem count_div_range {q : ℕ} (hq : 1 ≤ q) :
    ∀ k j : ℕ, j < k → ((List.range (q * k)).map (fun i => i / q)).count j = q := by
  intro k
  induction k with
  | zero => intro j hj; omega
  | succ k ih =>
    intro j hj
    have hsplit : List.range (q * (k + 1))
        = List.range (q * k) ++ (List.range q).map (fun x => q * k + x) := by
      rw [Nat.mul_succ, List.range_add]
    rw [hsplit, List.map_append, List.count_append, List.map_map]
    have hsecond : (List.range q).map ((fun i => i / q) ∘ (fun x => q * k + x))
        = List.replicate q k := by
      rw [List.eq_replicate_iff]
      constructor
      · simp
      · intro b hb
        simp only [List.mem_map, Function.comp, List.mem_range] at hb
        obtain ⟨x, hx, rfl⟩ := hb
        rw [Nat.mul_add_div (by omega : 0 < q), Nat.div_eq_of_lt hx]
        omega
    rw [hsecond, List.count_replicate]
    rcases Nat.lt_or_ge j k with hjk | hjk
    · rw [ih j hjk]
      have h1 : ¬ (j = k) := by omega
      have h2 : ¬ (k = j) := by omega
      simp [h1, h2]
    · have hjeq : j = k := by omega
      subst hjeq
      have hfirst : ((List.range (q * j)).map (fun i => i / q)).count j = 0 := by
        rw [List.count_eq_zero]
        intro hmem
        simp only [List.mem_map, List.mem_range] at hmem
        obtain ⟨x, hx, hxe⟩ := hmem
        have hcomm : q * j = j * q := Nat.mul_comm q j
        have : x / q < j := by
          rw [Nat.div_lt_iff_lt_mul (by omega : 0 < q)]
          omega
        omega
      rw [hfirst]
      simp

theorem quantiles_count_nodup {s : List ℚ} {k j : ℕ} (hnd : s.Nodup) (hk : 1 ≤ k)
    (hkn : k ≤ s.length) (hdvd : k ∣ s.length) (hj : j < k) :
    (quantiles s k).yb.count j = s.length / k := by
  have hn : s.length = k * (s.length / k) := (Nat.mul_div_cancel' hdvd).symm
  have hq : 1 ≤ s.length / k := (Nat.one_le_div_iff (by omega : 0 < k)).mpr hkn
  have hcount1 : (quantiles s k).yb.count j
      = ((sortQ s).map (classOf (quantBins s k))).count j := by
    have hperm : ((sortQ s).map (classOf (quantBins s k))).Perm
        (s.map (classOf (quantBins s k))) := (sortQ_perm s).map _
    have hyb : (quantiles s k).yb = s.map (classOf (quantBins s k)) := rfl
    rw [hyb]
    exact (hperm.count_eq j).symm
  have hmap : (sortQ s).map (classOf (quantBins s k))
      = (List.range ((s.length / k) * k)).map (fun i => i / (s.length / k)) := by
    apply List.ext_getElem
    · rw [List.length_map, List.length_map, length_sortQ, List.length_range,
        Nat.mul_comm]
      omega
    · intro i h1 h2
      simp only [List.getElem_map, List.getElem_range]
      have hi : i < s.length := by
        rw [List.length_map, length_sortQ] at h1
        exact h1
      have hkey := classOf_quantBins_nodup hnd hk hq hn hi
      rw [← hkey]
      congr 1
      rw [List.getD_eq_getElem _ 0 (by rw [length_sortQ]; omega)]
  rw [hcount1, hmap]
  exact count_div_range hq k j hj

theorem flatten_range_map_nil {m : ℕ} {g : ℕ → List ℚ} (h : ∀ j < m, g j = []) :
    ((List.range m).map g).flatten = [] := by
  induction m with
  | zero => simp
  | succ m ih =>
    rw [List.range_succ, List.map_append, List.flatten_append]
    rw [ih (fun j hj => h j (by omega))]
    simp [h m (by omega)]

theorem flatten_range_map_consAt {v : ℚ} :
    ∀ (c m : ℕ) (F : ℕ → List ℚ), c < m → (∀ j < c, F j = []) →
      ((List.range m).map (fun j => if c = j then v :: F j else F j)).flatten
        = v :: ((List.range m).map F).flatten := by
  intro c
  induction c with
  | zero =>
    intro m F hcm hbelow
    cases m with
    | zero => omega
    | succ m =>
      rw [List.range_succ_eq_map]
      simp only [List.map_cons, List.flatten_cons, List.map_map]
      have hcomp : ((fun j => if 0 = j then v :: F j else F j) ∘ Nat.succ)
          = (F ∘ Nat.succ) := by
        funext j
        simp
      rw [hcomp]
      simp
  | succ c ih =>
    intro m F hcm hbelow
    cases m with
    | zero => omega
    | succ m =>
      rw [List.range_succ_eq_map]
      simp only [List.map_cons, List.flatten_cons, List.map_map]
      have h0 : (if c + 1 = 0 then v :: F 0 else F 0) = F 0 := by simp
      have hF0 : F 0 = [] := hbelow 0 (by omega)
      have hcomp : ((fun j => if c + 1 = j then v :: F j else F j) ∘ Nat.succ)
          = (fun j => if c = j then v :: (F ∘ Nat.succ) j else (F ∘ Nat.succ) j) := by
        funext j
        by_cases hc : c = j
        · simp [hc]
        · have : ¬ (c + 1 = j + 1) := by omega
          simp [hc, this]
      rw [h0, hF0, hcomp]
      rw [ih m (F ∘ Nat.succ) (by omega) (fun j hj => hbelow (j + 1) (by omega))]
      simp

theorem flatten_classFilter {f : ℚ → ℕ} {m : ℕ} :
    ∀ {l : List ℚ}, (∀ v ∈ l, f v < m) →
      l.Pairwise (fun a b => f a ≤ f b) →
      ((List.range m).map (fun j => l.filter (fun v => decide (f v = j)))).flatten = l := by
  intro l
  induction l with
  | nil =>
    intro _ _
    apply flatten_range_map_nil
    intro j hj
    simp
  | cons a t ih =>
    intro hbound hpw
    have hfa : f a < m := hbound a (List.mem_cons_self a t)
    have hpw2 : t.Pairwise (fun a b => f a ≤ f b) := hpw.of_cons
    have hmono : ∀ w ∈ t, f a ≤ f w := fun w hw => List.rel_of_pairwise_cons hpw hw
    have hfun : (fun j => (a :: t).filter (fun v => decide (f v = j)))
        = (fun j => if f a = j then a :: t.filter (fun v => decide (f v = j))
            else t.filter (fun v => decide (f v = j))) := by
      funext j
      by_cases hc : f a = j
      · simp [List.filter_cons, hc]
      · simp [List.filter_cons, hc]
    rw [hfun,
      flatten_range_map_consAt (f a) m _ hfa
        (fun j hj => List.filter_eq_nil_iff.mpr (fun w hw => by
          have := hmono w hw
          simp only [decide_eq_true_eq]
          omega)),
      ih (fun w hw => hbound w (List.mem_cons_of_mem a hw)) hpw2]

theorem ssdP_cons (b : List ℚ) (Q : List (List ℚ)) :
    ssdP (b :: Q) = ssdBlock b + ssdP Q := by
  simp [ssdP]

theorem ssdP_filter_ne_nil (P : List (List ℚ)) :
    ssdP (P.filter (fun b => decide (b ≠ []))) = ssdP P := by
  induction P with
  | nil => rfl
  | cons b Q ih =>
    simp only [ne_eq, decide_not] at ih
    by_cases hb : b = []
    · subst hb
      simp [List.filter_cons, ssdP_cons, ih, ssdBlock]
    · simp [List.filter_cons, hb, ssdP_cons, ih]

theorem flatten_filter_ne_nil (P : List (List ℚ)) :
    (P.filter (fun b => decide (b ≠ []))).flatten = P.flatten := by
  induction P with
  | nil => rfl
  | cons b Q ih =>
    simp only [ne_eq, decide_not] at ih
    by_cases hb : b = []
    · subst hb
      simp [List.filter_cons, ih]
    · simp [List.filter_cons, hb, ih]

/-- The classes of a classification, as the list of nonempty blocks of the
(ascending) sample grouped by class id. -/
def classParts (bins : List ℚ) (l : List ℚ) : List (List ℚ) :=
  ((List.range bins.length).map
    (fun j => l.filter (fun v => decide (classOf bins v = j)))).filter
      (fun b => decide (b ≠ []))

theorem classParts_mem_parts {bins l : List ℚ} {k : ℕ}
    (hsorted : List.Sorted (· ≤ ·) l)
    (hlen : bins.length ≤ k)
    (hbound : ∀ v ∈ l, classOf bins v < bins.length) :
    classParts bins l ∈ parts k l := by
  apply mem_parts.mpr
  refine ⟨?_, ?_, ?_⟩
  · rw [classParts, flatten_filter_ne_nil]
    exact flatten_classFilter hbound (hsorted.imp (fun h => classOf_mono bins h))
  · calc (classParts bins l).length
        ≤ ((List.range bins.length).map
            (fun j => l.filter (fun v => decide (classOf bins v = j)))).length :=
          List.length_filter_le _ _
      _ = bins.length := by simp
      _ ≤ k := hlen
  · intro b hb
    have := (List.mem_filter.mp hb).2
    simpa using this

theorem fjSSD_le_wcss_quantiles {s : List ℚ} {k : ℕ} (hk : 1 ≤ k) :
    fjSSD s k ≤ wcss (quantiles s k) := by
  obtain ⟨-, hmin⟩ := fjPartition_spec (s := s) (k := k) hk
  have hbound : ∀ v ∈ sortQ s, classOf (quantBins s k) v < (quantBins s k).length := by
    intro v hv
    exact classOf_lt_length (exists_bin_quantiles hk v (mem_sortQ.mp hv))
  have hmem := classParts_mem_parts (sortQ_sorted s)
    (le_of_eq (quantBins_length s k)) hbound
  have hle := hmin _ hmem
  have hq : wcss (quantiles s k) = ssdP (classParts (quantBins s k) (sortQ s)) := by
    rw [classParts, ssdP_filter_ne_nil]
    rfl
  rw [hq]
  exact hle

theorem isSub_correct {p l : List Char} : isSub p l = true ↔ p <:+: l := by
  induction l with
  | nil => simp [isSub, List.isEmpty_iff, List.infix_nil]
  | cons a t ih =>
    rw [isSub]
    simp only [Bool.or_eq_true, List.isPrefixOf_iff_prefix, ih]
    rw [List.infix_cons_iff]

theorem mbBins_length_le (s : List ℚ) (k : ℕ) (hk : 1 ≤ k) :
    (mbBins s k).length ≤ k := by
  rw [mbBins]
  simp only [List.length_append, List.length_singleton]
  rw [length_sortQ, List.length_map]
  have h1 := List.length_take_le (k - 1)
    (List.insertionSort (fun p q : ℚ × ℚ => q.2 - q.1 ≤ p.2 - p.1)
      ((uniqVals s).zip (uniqVals s).tail))
  omega

theorem maxOf_mem_mbBins (s : List ℚ) (k : ℕ) : maxOf s ∈ mbBins s k := by
  rw [mbBins]
  exact List.mem_append_right _ (List.mem_singleton_self _)

/-- C1: for every sample and every k with 1 ≤ k ≤ n, the classification
results (quantiles, equal interval, Fisher-Jenks) assign each observation the
smallest bin index whose upper bound is ≥ the observation's value, the classes
cover every observation exactly once (each observation gets exactly one class
id and the class counts sum to n), and class ids are non-decreasing when the
observations are sorted by value. -/
theorem claim1_classification_invariant (s : List ℚ) (k : ℕ)
    (hk : 1 ≤ k) (hkn : k ≤ s.length) :
    ValidResult (quantiles s k) s ∧ ValidResult (equal_interval s k) s ∧
      ValidResult (fisher_jenks s k) s :=
  ⟨validResult_mkResult (exists_bin_quantiles hk),
   validResult_mkResult (exists_bin_ei hk),
   validResult_mkResult (exists_bin_fj hk)⟩

/-- Witness for C1 at sample [3,1,2] with k = 2. -/
theorem claim1_witness :
    1 ≤ 2 ∧ 2 ≤ ([(3:ℚ),1,2]).length ∧
      (ValidResult (quantiles [(3:ℚ),1,2] 2) [(3:ℚ),1,2] ∧
        ValidResult (equal_interval [(3:ℚ),1,2] 2) [(3:ℚ),1,2] ∧
        ValidResult (fisher_jenks [(3:ℚ),1,2] 2) [(3:ℚ),1,2]) :=
  ⟨by norm_num, by simp,
    claim1_classification_invariant [(3:ℚ),1,2] 2 (by norm_num) (by simp)⟩

/-- C3: quantiles sets the bin upper bound for class j to the value at rank
⌈(j+1)·n/k⌉ - 1 of the sorted sample; for sample [1,…,10] and k = 5 the bins
are [2,4,6,8,10] and each class has exactly two members. -/
theorem claim3_quantile_bins (s : List ℚ) (k j : ℕ)
    (hk : 1 ≤ k) (hkn : k ≤ s.length) (hj : j < k) :
    (quantiles s k).bins.getD j 0
        = (sortQ s).getD (nceil ((j + 1) * s.length) k - 1) 0 ∧
      (quantiles [(1:ℚ),2,3,4,5,6,7,8,9,10] 5).bins = [2,4,6,8,10] ∧
      (∀ j2 < 5, (quantiles [(1:ℚ),2,3,4,5,6,7,8,9,10] 5).yb.count j2 = 2) := by
  refine ⟨quantBins_getD hj, ?_, ?_⟩
  · norm_num [quantiles, mkResult, quantBins, nceil, sortQ,
      List.insertionSort, List.orderedInsert, List.range_succ]
  · have hyb : (quantiles [(1:ℚ),2,3,4,5,6,7,8,9,10] 5).yb
        = [0,0,1,1,2,2,3,3,4,4] := by
      norm_num [quantiles, mkResult, quantBins, nceil, sortQ,
        List.insertionSort, List.orderedInsert, List.range_succ, classOf,
        List.findIdx, List.findIdx.go]
    rw [hyb]
    decide

/-- Witness for C3 at sample [1,…,10] with k = 5, j = 0. -/
theorem claim3_witness :
    1 ≤ 5 ∧ 5 ≤ ([(1:ℚ),2,3,4,5,6,7,8,9,10]).length ∧ 0 < 5 ∧
      ((quantiles [(1:ℚ),2,3,4,5,6,7,8,9,10] 5).bins.getD 0 0
          = (sortQ [(1:ℚ),2,3,4,5,6,7,8,9,10]).getD
              (nceil ((0 + 1) * ([(1:ℚ),2,3,4,5,6,7,8,9,10]).length) 5 - 1) 0 ∧
        (quantiles [(1:ℚ),2,3,4,5,6,7,8,9,10] 5).bins = [2,4,6,8,10] ∧
        (∀ j2 < 5, (quantiles [(1:ℚ),2,3,4,5,6,7,8,9,10] 5).yb.count j2 = 2)) :=
  ⟨by norm_num, by simp, by norm_num,
    claim3_quantile_bins [(1:ℚ),2,3,4,5,6,7,8,9,10] 5 0
      (by norm_num) (by simp) (by norm_num)⟩

/-- C4 counterexample: for sample [1,2,3,4,100] and k = 2 the equal-interval
width is 99/2 = 49.5 (not 19.8) and the bins are [50.5, 100] (not
[20.8, 100]); the example in the claim contradicts the claim's own width
formula (max-min)/k. -/
theorem claim4_counterexample :
    ((maxOf [(1:ℚ),2,3,4,100] - minOf [(1:ℚ),2,3,4,100]) / 2 ≠ 99/5) ∧
      (equal_interval [(1:ℚ),2,3,4,100] 2).bins ≠ [104/5, 100] := by
  have hmax : maxOf [(1:ℚ),2,3,4,100] = 100 := by
    norm_num [maxOf, sortQ, List.insertionSort, List.orderedInsert]
  have hmin : minOf [(1:ℚ),2,3,4,100] = 1 := by
    norm_num [minOf, sortQ, List.insertionSort, List.orderedInsert]
  have hbins : (equal_interval [(1:ℚ),2,3,4,100] 2).bins = [101/2, 100] := by
    norm_num [equal_interval, mkResult, eiBins, maxOf, minOf, sortQ,
      List.insertionSort, List.orderedInsert, List.range_succ]
  refine ⟨?_, ?_⟩
  · rw [hmax, hmin]
    norm_num
  · rw [hbins]
    intro h
    have := List.head_eq_of_cons_eq h
    norm_num at this

/-- C4 amended: equal_interval computes width (max-min)/k and sets bin j's
upper bound to min + (j+1)·width; for sample [1,2,3,4,100] and k = 2 this
yields width 99/2 = 49.5, class boundaries [50.5, 100], and class assignment
[0,0,0,0,1]. -/
theorem claim4_amended (s : List ℚ) (k j : ℕ) (hk : 0 < k)
    (hne : maxOf s ≠ minOf s) (hj : j < k) :
    (equal_interval s k).bins.getD j 0
        = minOf s + ((j : ℚ) + 1) * ((maxOf s - minOf s) / k) ∧
      (maxOf [(1:ℚ),2,3,4,100] - minOf [(1:ℚ),2,3,4,100]) / 2 = 99/2 ∧
      (equal_interval [(1:ℚ),2,3,4,100] 2).bins = [101/2, 100] ∧
      (equal_interval [(1:ℚ),2,3,4,100] 2).yb = [0,0,0,0,1] := by
  refine ⟨eiBins_getD hne hj, ?_, ?_, ?_⟩
  · norm_num [maxOf, minOf, sortQ, List.insertionSort, List.orderedInsert]
  · norm_num [equal_interval, mkResult, eiBins, maxOf, minOf, sortQ,
      List.insertionSort, List.orderedInsert, List.range_succ]
  · norm_num [equal_interval, mkResult, eiBins, maxOf, minOf, sortQ,
      List.insertionSort, List.orderedInsert, List.range_succ, classOf,
      List.findIdx, List.findIdx.go]

/-- Witness for the amended C4 at sample [1,2,3,4,100] with k = 2, j = 0. -/
theorem claim4_witness :
    0 < 2 ∧ maxOf [(1:ℚ),2,3,4,100] ≠ minOf [(1:ℚ),2,3,4,100] ∧ 0 < 2 ∧
      ((equal_interval [(1:ℚ),2,3,4,100] 2).bins.getD 0 0
          = minOf [(1:ℚ),2,3,4,100] + ((0 : ℚ) + 1)
              * ((maxOf [(1:ℚ),2,3,4,100] - minOf [(1:ℚ),2,3,4,100]) / 2) ∧
        (maxOf [(1:ℚ),2,3,4,100] - minOf [(1:ℚ),2,3,4,100]) / 2 = 99/2 ∧
        (equal_interval [(1:ℚ),2,3,4,100] 2).bins = [101/2, 100] ∧
        (equal_interval [(1:ℚ),2,3,4,100] 2).yb = [0,0,0,0,1]) :=
  ⟨by norm_num,
   by norm_num [maxOf, minOf, sortQ, List.insertionSort, List.orderedInsert],
   by norm_num,
   claim4_amended [(1:ℚ),2,3,4,100] 2 0 (by norm_num)
     (by norm_num [maxOf, minOf, sortQ, List.insertionSort, List.orderedInsert])
     (by norm_num)⟩

/-- C5 counterexample: for the sample [1,1,1,1] (duplicate values) and k = 2,
n is divisible by k but class 0 of the quantiles classification contains all
four observations instead of n/k = 2. -/
theorem claim5_counterexample :
    ¬ ((quantiles [(1:ℚ),1,1,1] 2).yb.count 0 = ([(1:ℚ),1,1,1]).length / 2) := by
  have hyb : (quantiles [(1:ℚ),1,1,1] 2).yb = [0,0,0,0] := by
    norm_num [quantiles, mkResult, quantBins, nceil, sortQ,
      List.insertionSort, List.orderedInsert, List.range_succ, classOf,
      List.findIdx, List.findIdx.go]
  rw [hyb]
  decide

/-- C5 amended: for every sample of size n with pairwise distinct values and
every k with 1 ≤ k ≤ n such that n is divisible by k, quantiles produces
classes containing exactly n/k observations each; with duplicate values the
classes can be unequal. -/
theorem claim5_amended (s : List ℚ) (k j : ℕ) (hnd : s.Nodup) (hk : 1 ≤ k)
    (hkn : k ≤ s.length) (hdvd : k ∣ s.length) (hj : j < k) :
    (quantiles s k).yb.count j = s.length / k :=
  quantiles_count_nodup hnd hk hkn hdvd hj

/-- Witness for the amended C5 at sample [1,2,3,4] with k = 2, j = 0. -/
theorem claim5_witness :
    ([(1:ℚ),2,3,4]).Nodup ∧ 1 ≤ 2 ∧ 2 ≤ ([(1:ℚ),2,3,4]).length ∧
      2 ∣ 4 ∧ 0 < 2 ∧
      (quantiles [(1:ℚ),2,3,4] 2).yb.count 0 = ([(1:ℚ),2,3,4]).length / 2 :=
  ⟨by norm_num, by norm_num, by simp, by decide, by norm_num,
    claim5_amended [(1:ℚ),2,3,4] 2 0 (by norm_num) (by norm_num) (by simp)
      (by show 2 ∣ ([(1:ℚ),2,3,4]).length; simp; decide) (by norm_num)⟩

/-- C6: quantiles fails with InvalidArgument exactly when k ≤ 0 (k = 0 over
ℕ) or k > n, and returns a classification result for all other k. -/
theorem claim6_quantilesE_error_iff (s : List ℚ) (k : ℕ) :
    (quantilesE s k = Except.error ClsError.InvalidArgument
        ↔ (k = 0 ∨ s.length < k)) ∧
      ((∃ r, quantilesE s k = Except.ok r) ↔ (1 ≤ k ∧ k ≤ s.length)) := by
  by_cases h : k = 0 ∨ s.length < k
  · rw [quantilesE, if_pos h]
    refine ⟨⟨fun _ => h, fun _ => rfl⟩, ?_, ?_⟩
    · rintro ⟨r, hr⟩
      simp at hr
    · rintro ⟨h1, h2⟩
      rcases h with h | h <;> omega
  · rw [quantilesE, if_neg h]
    push_neg at h
    refine ⟨⟨fun he => ?_, fun hc => ?_⟩, ?_, ?_⟩
    · simp at he
    · rcases hc with hc | hc <;> omega
    · intro _
      exact ⟨by omega, by omega⟩
    · intro _
      exact ⟨quantiles s k, rfl⟩

/-- C7: maximum_breaks fails with InvalidArgument whenever the sample has
fewer than k distinct values, rather than returning a degenerate or truncated
result. -/
theorem claim7_maximum_breaks_error (s : List ℚ) (k : ℕ)
    (h : (uniqVals s).length < k) :
    maximum_breaksE s k = Except.error ClsError.InvalidArgument := by
  rw [maximum_breaksE, if_pos (Or.inr h)]

/-- Witness for C7 at sample [1,1] (one distinct value) with k = 2. -/
theorem claim7_witness :
    (uniqVals [(1:ℚ),1]).length < 2 ∧
      maximum_breaksE [(1:ℚ),1] 2 = Except.error ClsError.InvalidArgument :=
  ⟨by norm_num [uniqVals, sortQ, List.insertionSort, List.orderedInsert,
      List.dedup],
   claim7_maximum_breaks_error [(1:ℚ),1] 2
     (by norm_num [uniqVals, sortQ, List.insertionSort, List.orderedInsert,
       List.dedup])⟩

/-- C8: for every nonempty sample whose maximum equals its minimum and every
k > 0, equal_interval succeeds and degenerates to a single bin holding every
observation in class 0. -/
theorem claim8_equal_interval_degenerate (s : List ℚ) (k : ℕ) (hs : s ≠ [])
    (hk : 0 < k) (heq : maxOf s = minOf s) :
    equal_intervalE s k = Except.ok (equal_interval s k) ∧
      (equal_interval s k).bins = [maxOf s] ∧
      (equal_interval s k).yb = List.replicate s.length 0 := by
  refine ⟨by rw [equal_intervalE, if_neg (by omega)], ?_, ?_⟩
  · show eiBins s k = [maxOf s]
    rw [eiBins, if_pos heq]
  · show s.map (classOf (eiBins s k)) = List.replicate s.length 0
    rw [List.eq_replicate_iff]
    refine ⟨by simp, ?_⟩
    intro b hb
    obtain ⟨v, hv, rfl⟩ := List.mem_map.mp hb
    have hbins : eiBins s k = [maxOf s] := by rw [eiBins, if_pos heq]
    have hle : v ≤ maxOf s := mem_le_maxOf hv
    rw [hbins]
    simp [classOf, List.findIdx_cons, hle]

/-- Witness for C8 at sample [2,2] with k = 3. -/
theorem claim8_witness :
    [(2:ℚ),2] ≠ [] ∧ 0 < 3 ∧ maxOf [(2:ℚ),2] = minOf [(2:ℚ),2] ∧
      (equal_intervalE [(2:ℚ),2] 3 = Except.ok (equal_interval [(2:ℚ),2] 3) ∧
        (equal_interval [(2:ℚ),2] 3).bins = [maxOf [(2:ℚ),2]] ∧
        (equal_interval [(2:ℚ),2] 3).yb = List.replicate ([(2:ℚ),2]).length 0) :=
  ⟨by simp, by norm_num,
   by norm_num [maxOf, minOf, sortQ, List.insertionSort, List.orderedInsert],
   claim8_equal_interval_degenerate [(2:ℚ),2] 3 (by simp) (by norm_num)
     (by norm_num [maxOf, minOf, sortQ, List.insertionSort, List.orderedInsert])⟩

/-- C2 counterexample: for the sample [0,5,35,73] and k = 2, the Fisher-Jenks
partition minimising the squared-deviation objective is {0,5,35 | 73}, whose
adcm is 130/3 ≈ 43.33, strictly larger than the adcm 43 of the quantiles
classification {0,5 | 35,73}; the claimed fit_measure inequality fails. -/
theorem claim2_counterexample :
    ¬ (adcm (fisher_jenks [(0:ℚ),5,35,73] 2)
        ≤ adcm (quantiles [(0:ℚ),5,35,73] 2)) := by
  have hfj : fjPartition [(0:ℚ),5,35,73] 2 = [[0,5,35],[73]] := by
    have hs : sortQ [(0:ℚ),5,35,73] = [0,5,35,73] := by
      norm_num [sortQ, List.insertionSort, List.orderedInsert]
    rw [fjPartition, hs]
    rw [show parts 2 [(0:ℚ),5,35,73]
      = [[[0],[5,35,73]], [[0,5],[35,73]], [[0,5,35],[73]], [[0,5,35,73]]] from rfl]
    rw [argminQ]
    norm_num [ssdP, ssdBlock, mean]
  have h1 : adcm (fisher_jenks [(0:ℚ),5,35,73] 2) = 130/3 := by
    rw [adcm, fisher_jenks, hfj]
    norm_num [mkResult, classOf, List.findIdx, List.findIdx.go, List.range_succ,
      adBlock, mean, List.filter, abs_of_nonneg]
  have h2 : adcm (quantiles [(0:ℚ),5,35,73] 2) = 43 := by
    rw [adcm]
    norm_num [quantiles, mkResult, quantBins, nceil, sortQ, List.insertionSort,
      List.orderedInsert, List.range_succ, classOf, List.findIdx,
      List.findIdx.go, adBlock, mean, List.filter, abs_of_nonneg]
  rw [h1, h2]
  norm_num

/-- C2 amended: for every sample and every k with 1 ≤ k ≤ n, the within-class
sum of squared deviations — the objective fisher_jenks optimises — of the
Fisher-Jenks partition is ≤ the within-class sum of squared deviations of the
quantiles classification of the same sample with the same k; the inequality
for the absolute-deviation fit_measure (adcm) fails. -/
theorem claim2_amended (s : List ℚ) (k : ℕ) (hk : 1 ≤ k) (hkn : k ≤ s.length) :
    fjSSD s k ≤ wcss (quantiles s k) :=
  fjSSD_le_wcss_quantiles hk

/-- Witness for the amended C2 at sample [0,5,35,73] with k = 2. -/
theorem claim2_witness :
    1 ≤ 2 ∧ 2 ≤ ([(0:ℚ),5,35,73]).length ∧
      fjSSD [(0:ℚ),5,35,73] 2 ≤ wcss (quantiles [(0:ℚ),5,35,73] 2) :=
  ⟨by norm_num, by simp,
    claim2_amended [(0:ℚ),5,35,73] 2 (by norm_num) (by simp)⟩

/-- C9: has_pool returns 1 exactly when the substring "Pool" occurs in its
argument and 0 otherwise, so a derived pool column (mapping has_pool over the
amenities strings) contains only the values 0 and 1. -/
theorem claim9_has_pool (a : List Char) :
    (has_pool a = 1 ↔ "Pool".toList <:+: a) ∧
      (has_pool a = 0 ↔ ¬ "Pool".toList <:+: a) ∧
      ∀ col : List (List Char), ∀ x ∈ col.map has_pool, x = 0 ∨ x = 1 := by
  have hcases : ∀ b : List Char, has_pool b = 0 ∨ has_pool b = 1 := by
    intro b
    rw [has_pool]
    by_cases h : isSub "Pool".toList b
    · right
      rw [if_pos h]
    · left
      rw [if_neg h]
  refine ⟨?_, ?_, ?_⟩
  · rw [has_pool]
    by_cases h : isSub "Pool".toList a
    · rw [if_pos h]
      exact iff_of_true rfl (isSub_correct.mp h)
    · rw [if_neg h]
      constructor
      · intro h0
        exact absurd h0 (by omega)
      · intro hc
        exact absurd (isSub_correct.mpr hc) h
  · rw [has_pool]
    by_cases h : isSub "Pool".toList a
    · rw [if_pos h]
      constructor
      · intro h1
        exact absurd h1 (by omega)
      · intro hc
        exact absurd (isSub_correct.mp h) hc
    · rw [if_neg h]
      exact iff_of_true rfl (fun hc => h (isSub_correct.mpr hc))
  · intro col x hx
    obtain ⟨b, hb, rfl⟩ := List.mem_map.mp hx
    exact hcases b

/-- Witness for C9 on a string containing "Pool" and one without it. -/
theorem claim9_witness :
    ("Pool".toList <:+: "a Pool here".toList ∧
        has_pool "a Pool here".toList = 1) ∧
      (¬ "Pool".toList <:+: "ab".toList ∧ has_pool "ab".toList = 0) :=
  ⟨⟨by decide, (claim9_has_pool "a Pool here".toList).1.mpr (by decide)⟩,
   ⟨by decide, (claim9_has_pool "ab".toList).2.1.mpr (by decide)⟩⟩

/-- C10: every class id produced by the k = 10 Fisher-Jenks classifier (and by
the k = 10 maximum-breaks classifier whenever it succeeds) is at most 9, so
the palette lookup colors10[9-i] is a valid index into the 10-element colors10
list (non-negative and below its length). -/
theorem claim10_palette_indices (s : List ℚ) (hs : s ≠ []) :
    (∀ c ∈ (fisher_jenks s 10).yb,
        c < 10 ∧ 0 ≤ (9 : ℤ) - (c : ℤ) ∧
          (9 : ℤ) - (c : ℤ) < (colors10.length : ℤ)) ∧
      (∀ r, maximum_breaksE s 10 = Except.ok r →
        ∀ c ∈ r.yb, c < 10 ∧ 0 ≤ (9 : ℤ) - (c : ℤ) ∧
          (9 : ℤ) - (c : ℤ) < (colors10.length : ℤ)) := by
  have hcol : colors10.length = 10 := rfl
  constructor
  · intro c hc
    have hmap : (fisher_jenks s 10).yb
        = s.map (classOf ((fjPartition s 10).map (fun b => b.getLastD 0))) := rfl
    rw [hmap] at hc
    obtain ⟨v, hv, rfl⟩ := List.mem_map.mp hc
    have hlt : classOf ((fjPartition s 10).map (fun b => b.getLastD 0)) v
        < ((fjPartition s 10).map (fun b => b.getLastD 0)).length :=
      classOf_lt_length (exists_bin_fj (by omega) v hv)
    have hplen : (fjPartition s 10).length ≤ 10 := by
      obtain ⟨hmem, -⟩ := fjPartition_spec (s := s) (k := 10) (by omega)
      exact (mem_parts.mp hmem).2.1
    rw [List.length_map] at hlt
    have hc10 : classOf ((fjPartition s 10).map (fun b => b.getLastD 0)) v < 10 :=
      lt_of_lt_of_le hlt hplen
    refine ⟨hc10, by omega, by rw [hcol]; omega⟩
  · intro r hr
    rw [maximum_breaksE] at hr
    by_cases hg : (10 : ℕ) = 0 ∨ (uniqVals s).length < 10
    · rw [if_pos hg] at hr
      simp at hr
    · rw [if_neg hg] at hr
      have hre : mkResult (mbBins s 10) s = r := by
        simpa using hr
      subst hre
      intro c hc
      simp only [mkResult, List.mem_map] at hc
      obtain ⟨v, hv, rfl⟩ := hc
      have hex : ∃ b ∈ mbBins s 10, v ≤ b :=
        ⟨maxOf s, maxOf_mem_mbBins s 10, mem_le_maxOf hv⟩
      have hlt := classOf_lt_length hex
      have hlen := mbBins_length_le s 10 (by omega)
      have hc10 : classOf (mbBins s 10) v < 10 := lt_of_lt_of_le hlt hlen
      refine ⟨hc10, by omega, by rw [hcol]; omega⟩

/-- Witness for C10 at sample [0,1,2]. -/
theorem claim10_witness :
    (∀ c ∈ (fisher_jenks [(0:ℚ),1,2] 10).yb,
        c < 10 ∧ 0 ≤ (9 : ℤ) - (c : ℤ) ∧
          (9 : ℤ) - (c : ℤ) < (colors10.length : ℤ)) ∧
      (∀ r, maximum_breaksE [(0:ℚ),1,2] 10 = Except.ok r →
        ∀ c ∈ r.yb, c < 10 ∧ 0 ≤ (9 : ℤ) - (c : ℤ) ∧
          (9 : ℤ) - (c : ℤ) < (colors10.length : ℤ)) :=
  claim10_palette_indices [(0:ℚ),1,2] (by simp)
